import Mathlib

/-
  Verification of the Arxiv_LLM_Daily incremental-fetch / section-extraction /
  clustering pipeline.  The Python sources (src/arxiv_client.py,
  src/clustering.py, config/settings.py) are shallowly embedded below:
  strings become lists of characters, Python floats become rationals
  (Euclidean distances are compared through their squares, which preserves
  the sort order), the external embedding endpoint, the sklearn clustering
  routines and the unseeded noise sampler become explicit function
  parameters.
-/

namespace ArxivDaily

/-! ### String primitives (models of the Python `str` operations used) -/

/-- Does `sep` occur at the start of `hay`?  (model of `str.startswith`, and
the anchor step of `sep in hay`). -/
def isPre : List Char → List Char → Bool
  | [], _ => true
  | _ :: _, [] => false
  | c :: cs, d :: ds => c = d && isPre cs ds

/-- Model of Python `sep in hay` (substring containment). -/
def containsSub (sep : List Char) : List Char → Bool
  | [] => isPre sep []
  | c :: rest => isPre sep (c :: rest) || containsSub sep rest

/-- Split at the first occurrence of `sep`: returns the part before and the
part after the occurrence, or `none` when `sep` does not occur.  This is the
elementary step of Python `str.split` / `str.replace`. -/
def splitFirst (sep : List Char) : List Char → Option (List Char × List Char)
  | [] => none
  | c :: rest =>
    if isPre sep (c :: rest) then some ([], (c :: rest).drop sep.length)
    else
      match splitFirst sep rest with
      | some (b, a) => some (c :: b, a)
      | none => none

theorem splitFirst_length_lt {sep : List Char} (hsep : sep ≠ []) :
    ∀ {hay b a : List Char}, splitFirst sep hay = some (b, a) → a.length < hay.length := by
  intro hay
  induction hay with
  | nil => intro b a h; simp [splitFirst] at h
  | cons c rest ih =>
    intro b a h
    simp only [splitFirst] at h
    by_cases hp : isPre sep (c :: rest) = true
    · simp [hp] at h
      obtain ⟨rfl, rfl⟩ := h
      cases sep with
      | nil => exact absurd rfl hsep
      | cons s ss =>
        simp [List.length_drop]
        omega
    · simp [hp] at h
      rcases hsf : splitFirst sep rest with _ | ⟨b', a'⟩
      · rw [hsf] at h; simp at h
      · rw [hsf] at h
        simp at h
        obtain ⟨rfl, rfl⟩ := h
        have := ih hsf
        simp
        omega

/-- Model of Python `hay.split(sep)[-1]`: the part of `hay` after the last
occurrence of `sep` (the whole string when `sep` does not occur). -/
def pyLastSplit (sep : List Char) (hay : List Char) : List Char :=
  if hsep : sep = [] then hay
  else
    match h : splitFirst sep hay with
    | none => hay
    | some (_, a) => pyLastSplit sep a
termination_by hay.length
decreasing_by exact splitFirst_length_lt hsep h

/-- Model of Python `hay.replace(sep, '')`: remove every (left-to-right,
non-overlapping) occurrence of `sep`. -/
def removeAll (sep : List Char) (hay : List Char) : List Char :=
  if hsep : sep = [] then hay
  else
    match h : splitFirst sep hay with
    | none => hay
    | some (b, a) => b ++ removeAll sep a
termination_by hay.length
decreasing_by exact splitFirst_length_lt hsep h

/-- Model of Python `c in hay` for a single character. -/
def hasChar (c : Char) : List Char → Bool
  | [] => false
  | d :: rest => d = c || hasChar c rest

/-- Model of Python `hay.rsplit(c, 1)[0]`: everything before the last
occurrence of the character `c` (the whole string when `c` is absent;
the source only calls it when `c` occurs). -/
def beforeLastChar (c : Char) : List Char → List Char
  | [] => []
  | x :: rest =>
    if hasChar c rest then x :: beforeLastChar c rest
    else if x = c then []
    else x :: beforeLastChar c rest

/-! ### ArxivClient._extract_paper_id  (src/arxiv_client.py lines 67-83) -/

abbrev urlMarker : List Char := 'a' :: 'r' :: 'x' :: 'i' :: 'v' :: '.' :: 'o' :: 'r' :: 'g' :: '/' :: 'a' :: 'b' :: 's' :: '/' :: []

abbrev arxivScheme : List Char := 'a' :: 'r' :: 'x' :: 'i' :: 'v' :: ':' :: []

/-- Shallow embedding of `ArxivClient._extract_paper_id`. -/
def extract_paper_id (entryId : List Char) : List Char :=
  let paperId :=
    if containsSub urlMarker entryId then pyLastSplit urlMarker entryId
    else if isPre arxivScheme entryId then removeAll arxivScheme entryId
    else entryId
  if hasChar 'v' paperId then beforeLastChar 'v' paperId else paperId

/-! ### Lemmas about the string primitives -/

theorem isPre_append (sep t : List Char) : isPre sep (sep ++ t) = true := by
  induction sep with
  | nil => rfl
  | cons c cs ih => simp [isPre, ih]

theorem splitFirst_self_append {s : Char} (ss t : List Char) :
    splitFirst (s :: ss) ((s :: ss) ++ t) = some ([], t) := by
  have hp : isPre (s :: ss) ((s :: ss) ++ t) = true := isPre_append _ _
  rw [List.cons_append]
  rw [List.cons_append] at hp
  simp only [splitFirst, hp, if_pos]
  simp [List.drop_left]

theorem splitFirst_none_of_ne {s : Char} {ss : List Char} :
    ∀ {hay : List Char}, (∀ x ∈ hay, x ≠ s) → splitFirst (s :: ss) hay = none := by
  intro hay
  induction hay with
  | nil => intro _; rfl
  | cons c rest ih =>
    intro h
    have hc : ¬(s = c) := fun hsc => (h c (List.mem_cons_self c rest)) hsc.symm
    have hp : isPre (s :: ss) (c :: rest) = false := by
      simp [isPre, hc]
    simp [splitFirst, hp, ih (fun x hx => h x (List.mem_cons_of_mem _ hx))]

theorem splitFirst_clean_append {s : Char} {ss : List Char} (t : List Char) :
    ∀ {pre : List Char}, (∀ x ∈ pre, x ≠ s) →
      splitFirst (s :: ss) (pre ++ s :: (ss ++ t)) = some (pre, t) := by
  intro pre
  induction pre with
  | nil =>
    intro _
    simpa using splitFirst_self_append ss t
  | cons c pre ih =>
    intro h
    have hc : ¬(s = c) := fun hsc => (h c (List.mem_cons_self c pre)) hsc.symm
    have hp : isPre (s :: ss) (c :: (pre ++ s :: (ss ++ t))) = false := by
      simp [isPre, hc]
    have hrec := ih (fun x hx => h x (List.mem_cons_of_mem _ hx))
    simp only [List.cons_append]
    simp [splitFirst, hp, hrec]

theorem containsSub_eq_isSome {s : Char} {ss : List Char} :
    ∀ {hay : List Char}, containsSub (s :: ss) hay = (splitFirst (s :: ss) hay).isSome := by
  intro hay
  induction hay with
  | nil => rfl
  | cons c rest ih =>
    by_cases hp : isPre (s :: ss) (c :: rest) = true
    · simp [containsSub, splitFirst, hp]
    · rw [Bool.not_eq_true] at hp
      cases hsf : splitFirst (s :: ss) rest with
      | none => simp [containsSub, splitFirst, hp, ih, hsf]
      | some p =>
        cases p with
        | mk b a => simp [containsSub, splitFirst, hp, ih, hsf]

theorem pyLastSplit_of_none {sep hay : List Char} (hsep : sep ≠ [])
    (h : splitFirst sep hay = none) : pyLastSplit sep hay = hay := by
  rw [pyLastSplit, dif_neg hsep]
  split
  · rfl
  · rename_i b a heq
    rw [h] at heq
    simp at heq

theorem pyLastSplit_step {sep hay b a : List Char} (hsep : sep ≠ [])
    (h : splitFirst sep hay = some (b, a)) :
    pyLastSplit sep hay = pyLastSplit sep a := by
  rw [pyLastSplit, dif_neg hsep]
  split
  · rename_i heq
    rw [h] at heq
    simp at heq
  · rename_i b₂ a₂ heq
    rw [h] at heq
    simp only [Option.some.injEq, Prod.mk.injEq] at heq
    rw [heq.2]

theorem removeAll_of_none {sep hay : List Char} (hsep : sep ≠ [])
    (h : splitFirst sep hay = none) : removeAll sep hay = hay := by
  rw [removeAll, dif_neg hsep]
  split
  · rfl
  · rename_i b a heq
    rw [h] at heq
    simp at heq

theorem removeAll_step {sep hay b a : List Char} (hsep : sep ≠ [])
    (h : splitFirst sep hay = some (b, a)) :
    removeAll sep hay = b ++ removeAll sep a := by
  rw [removeAll, dif_neg hsep]
  split
  · rename_i heq
    rw [h] at heq
    simp at heq
  · rename_i b₂ a₂ heq
    rw [h] at heq
    simp only [Option.some.injEq, Prod.mk.injEq] at heq
    rw [heq.1, heq.2]

theorem hasChar_append (c : Char) (l₁ l₂ : List Char) :
    hasChar c (l₁ ++ l₂) = (hasChar c l₁ || hasChar c l₂) := by
  induction l₁ with
  | nil => simp [hasChar]
  | cons d rest ih => simp [hasChar, ih, Bool.or_assoc]

theorem beforeLastChar_append {c : Char} {ds : List Char} (h : hasChar c ds = false) :
    ∀ (p : List Char), beforeLastChar c (p ++ c :: ds) = p := by
  intro p
  induction p with
  | nil => simp [beforeLastChar, h]
  | cons x p ih =>
    have hmem : hasChar c (p ++ c :: ds) = true := by
      rw [hasChar_append]
      simp [hasChar]
    rw [List.cons_append, beforeLastChar, if_pos hmem, ih]

theorem beforeLastChar_length_lt {c : Char} :
    ∀ {hay : List Char}, hasChar c hay = true →
      (beforeLastChar c hay).length < hay.length := by
  intro hay
  induction hay with
  | nil => intro h; simp [hasChar] at h
  | cons x rest ih =>
    intro h
    by_cases hr : hasChar c rest = true
    · simp only [beforeLastChar, hr, if_pos, List.length_cons]
      exact Nat.succ_lt_succ (ih hr)
    · rw [Bool.not_eq_true] at hr
      simp only [hasChar, hr, Bool.or_false] at h
      have hx : x = c := by simpa using h
      simp [beforeLastChar, hr, hx]

theorem ne_of_isDigit {c d : Char} (h : c.isDigit = true) (hd : d.isDigit = false) :
    c ≠ d := by
  intro he
  rw [he] at h
  rw [h] at hd
  cases hd

/-! ### The normalized identifier of the specification examples -/

def paperBase : List Char := '2' :: '6' :: '0' :: '1' :: '.' :: '0' :: '0' :: '7' :: '9' :: '4' :: []

theorem no_a_paperBase_ver {ds : List Char} (hds : ∀ c ∈ ds, c.isDigit = true) :
    ∀ x ∈ paperBase ++ 'v' :: ds, x ≠ 'a' := by
  intro x hx
  rw [List.mem_append] at hx
  rcases hx with hx | hx
  · revert hx
    simp [paperBase]
    rintro (rfl | rfl | rfl | rfl | rfl | rfl | rfl | rfl | rfl | rfl) <;> decide
  · rw [List.mem_cons] at hx
    rcases hx with rfl | hx
    · decide
    · exact ne_of_isDigit (hds x hx) (by decide)

theorem no_a_paperBase : ∀ x ∈ paperBase, x ≠ 'a' := by
  intro x hx
  revert hx
  simp [paperBase]
  rintro (rfl | rfl | rfl | rfl | rfl | rfl | rfl | rfl | rfl | rfl) <;> decide

theorem hasChar_v_paperBase_ver (ds : List Char) :
    hasChar 'v' (paperBase ++ 'v' :: ds) = true := by
  rw [hasChar_append]
  simp [hasChar]

theorem hasChar_v_ds_false {ds : List Char} (hds : ∀ c ∈ ds, c.isDigit = true) :
    hasChar 'v' ds = false := by
  induction ds with
  | nil => rfl
  | cons c rest ih =>
    have hc : c ≠ 'v' := ne_of_isDigit (hds c (List.mem_cons_self c rest)) (by decide)
    simp only [hasChar, Bool.or_eq_false_iff]
    exact ⟨by simp [hc], ih (fun x hx => hds x (List.mem_cons_of_mem _ hx))⟩

/-! ### Specialisations to the two concrete markers of _extract_paper_id -/

theorem splitFirst_cons {sep : List Char} {c : Char} {rest : List Char}
    (h : isPre sep (c :: rest) = false) :
    splitFirst sep (c :: rest) =
      match splitFirst sep rest with
      | some (b, a) => some (c :: b, a)
      | none => none := by
  simp [splitFirst, h]

theorem containsSub_urlMarker (hay : List Char) :
    containsSub urlMarker hay = (splitFirst urlMarker hay).isSome :=
  containsSub_eq_isSome

theorem splitFirst_urlMarker_none {hay : List Char} (h : ∀ x ∈ hay, x ≠ 'a') :
    splitFirst urlMarker hay = none :=
  splitFirst_none_of_ne h

theorem splitFirst_urlMarker_clean {pre : List Char} (t : List Char)
    (hpre : ∀ x ∈ pre, x ≠ 'a') :
    splitFirst urlMarker (pre ++ (urlMarker ++ t)) = some (pre, t) :=
  splitFirst_clean_append t hpre

theorem splitFirst_scheme_none {hay : List Char} (h : ∀ x ∈ hay, x ≠ 'a') :
    splitFirst arxivScheme hay = none :=
  splitFirst_none_of_ne h

theorem splitFirst_scheme_self (t : List Char) :
    splitFirst arxivScheme (arxivScheme ++ t) = some ([], t) :=
  splitFirst_self_append _ t

theorem extract_url_shape {pre tail : List Char} (hpre : ∀ x ∈ pre, x ≠ 'a')
    (htail : ∀ x ∈ tail, x ≠ 'a') :
    extract_paper_id (pre ++ (urlMarker ++ tail)) =
      (if hasChar 'v' tail = true then beforeLastChar 'v' tail else tail) := by
  have hsf := splitFirst_urlMarker_clean tail hpre
  have hcon : containsSub urlMarker (pre ++ (urlMarker ++ tail)) = true := by
    rw [containsSub_urlMarker, hsf]
    rfl
  have hlast : pyLastSplit urlMarker (pre ++ (urlMarker ++ tail)) = tail := by
    rw [pyLastSplit_step (by decide) hsf,
      pyLastSplit_of_none (by decide) (splitFirst_urlMarker_none htail)]
  simp only [extract_paper_id, hcon, if_true, hlast]

theorem extract_scheme_shape {tail : List Char} (htail : ∀ x ∈ tail, x ≠ 'a') :
    extract_paper_id (arxivScheme ++ tail) =
      (if hasChar 'v' tail = true then beforeLastChar 'v' tail else tail) := by
  have hrest : splitFirst urlMarker ('r' :: 'x' :: 'i' :: 'v' :: ':' :: tail) = none := by
    apply splitFirst_urlMarker_none
    intro x hx
    simp only [List.mem_cons] at hx
    rcases hx with rfl | rfl | rfl | rfl | rfl | hx
    · decide
    · decide
    · decide
    · decide
    · decide
    · exact htail x hx
  have hiP : isPre urlMarker ('a' :: 'r' :: 'x' :: 'i' :: 'v' :: ':' :: tail) = false := rfl
  have hnone : splitFirst urlMarker (arxivScheme ++ tail) = none := by
    show splitFirst urlMarker ('a' :: 'r' :: 'x' :: 'i' :: 'v' :: ':' :: tail) = none
    rw [splitFirst_cons hiP, hrest]
  have hcon : containsSub urlMarker (arxivScheme ++ tail) = false := by
    rw [containsSub_urlMarker, hnone]
    rfl
  have hsch : isPre arxivScheme (arxivScheme ++ tail) = true := isPre_append _ _
  have hrem : removeAll arxivScheme (arxivScheme ++ tail) = tail := by
    rw [removeAll_step (by decide) (splitFirst_scheme_self tail),
      removeAll_of_none (by decide) (splitFirst_scheme_none htail)]
    rfl
  simp only [extract_paper_id, hcon, Bool.false_eq_true, if_false, hsch, if_true, hrem]

theorem extract_bare_shape {tail : List Char} (hcon : containsSub urlMarker tail = false)
    (hsch : isPre arxivScheme tail = false) :
    extract_paper_id tail = (if hasChar 'v' tail = true then beforeLastChar 'v' tail else tail) := by
  simp only [extract_paper_id, hcon, hsch, Bool.false_eq_true, if_false]

theorem version_strip {ds : List Char} (hds : ∀ c ∈ ds, c.isDigit = true) :
    (if hasChar 'v' (paperBase ++ 'v' :: ds) = true
      then beforeLastChar 'v' (paperBase ++ 'v' :: ds) else paperBase ++ 'v' :: ds) = paperBase := by
  rw [if_pos (hasChar_v_paperBase_ver ds), beforeLastChar_append (hasChar_v_ds_false hds)]

theorem version_strip_bare :
    (if hasChar 'v' paperBase = true then beforeLastChar 'v' paperBase else paperBase) = paperBase := by
  rw [if_neg]
  decide

/-- C5: Identifier normalization.  For an entry identifier of any of the shapes
`<prefix>arxiv.org/abs/2601.00794vN`, `<prefix>arxiv.org/abs/2601.00794`,
`arxiv:2601.00794vN`, `arxiv:2601.00794`, `2601.00794vN` or `2601.00794`
(N an arbitrary digit string, the URL prefix any string without the
character of the marker head), `_extract_paper_id` returns `2601.00794`:
the URL or scheme prefix is removed and the trailing version suffix is
stripped. -/
theorem c5_identifier_normalization (pre ds : List Char)
    (hpre : ∀ x ∈ pre, x ≠ 'a') (hds : ∀ c ∈ ds, c.isDigit = true) :
    extract_paper_id (pre ++ (urlMarker ++ (paperBase ++ 'v' :: ds))) = paperBase ∧
    extract_paper_id (pre ++ (urlMarker ++ paperBase)) = paperBase ∧
    extract_paper_id (arxivScheme ++ (paperBase ++ 'v' :: ds)) = paperBase ∧
    extract_paper_id (arxivScheme ++ paperBase) = paperBase ∧
    extract_paper_id (paperBase ++ 'v' :: ds) = paperBase ∧
    extract_paper_id paperBase = paperBase := by
  have hver := no_a_paperBase_ver hds
  have hbare := no_a_paperBase
  have hconV : containsSub urlMarker (paperBase ++ 'v' :: ds) = false := by
    rw [containsSub_urlMarker, splitFirst_urlMarker_none hver]
    rfl
  have hconB : containsSub urlMarker paperBase = false := by
    rw [containsSub_urlMarker, splitFirst_urlMarker_none hbare]
    rfl
  refine ⟨?_, ?_, ?_, ?_, ?_, ?_⟩
  · rw [extract_url_shape hpre hver, version_strip hds]
  · rw [extract_url_shape hpre hbare, version_strip_bare]
  · rw [extract_scheme_shape hver, version_strip hds]
  · rw [extract_scheme_shape hbare, version_strip_bare]
  · rw [extract_bare_shape hconV rfl, version_strip hds]
  · rw [extract_bare_shape hconB rfl, version_strip_bare]

/-- Witness for C5 at the specification example
`http://arxiv.org/abs/2601.00794v3`. -/
theorem c5_identifier_normalization_witness :
    extract_paper_id
      (('h' :: 't' :: 't' :: 'p' :: ':' :: '/' :: '/' :: []) ++ (urlMarker ++
        (paperBase ++ 'v' :: '3' :: []))) = paperBase :=
  (c5_identifier_normalization ('h' :: 't' :: 't' :: 'p' :: ':' :: '/' :: '/' :: [])
    ('3' :: []) (by decide) (by decide)).1

/-- C10: old-style identifiers containing the letter of a version marker are
truncated at its last occurrence (`solv-int/9701001` becomes `sol`), and on
identifiers without URL or scheme prefix the normalization is the identity
exactly when the identifier contains no such letter at all. -/
theorem c10_bare_id_truncation :
    extract_paper_id (String.toList "solv-int/9701001") = String.toList "sol" ∧
    ∀ pid : List Char, containsSub urlMarker pid = false → isPre arxivScheme pid = false →
      (extract_paper_id pid = pid ↔ hasChar 'v' pid = false) := by
  constructor
  · decide
  · intro pid hu hs
    constructor
    · intro he
      by_contra hv
      rw [Bool.not_eq_false] at hv
      have hlt := beforeLastChar_length_lt hv
      rw [extract_bare_shape hu hs, if_pos hv] at he
      rw [he] at hlt
      exact lt_irrefl _ hlt
    · intro hv
      rw [extract_bare_shape hu hs]
      simp [hv]

/-- Witness for C10: a version-marker-free identifier is left unchanged. -/
theorem c10_bare_id_truncation_witness :
    extract_paper_id (String.toList "2601.00794") = String.toList "2601.00794" :=
  (c10_bare_id_truncation.2 (String.toList "2601.00794") (by decide) (by decide)).mpr
    (by decide)

/-! ### ArxivClient.search_papers  (src/arxiv_client.py lines 388-514)

The result stream delivered by the external arXiv API is modelled as a list
of items carrying their `entry_id`; processing an accepted item (the PDF
enrichment, which is irrelevant to the watermark logic) is modelled by
emitting the item together with its normalized paper id. -/

structure SearchItem where
  entryId : List Char
deriving DecidableEq

/-- The result loop of `search_papers`: `found` is `found_last_processed`,
`count` is `processed_count`, `lastId` the watermark loaded by
`_load_latest_processed_paper_id` and `maxTotal` the configured
`max_total_results`. -/
def searchLoop (lastId : Option (List Char)) (maxTotal : Nat) :
    List SearchItem → Bool → Nat → List (SearchItem × List Char)
  | [], _, _ => []
  | p :: rest, found, count =>
    let pid := extract_paper_id p.entryId
    if found = false then
      if some pid = lastId then searchLoop lastId maxTotal rest true count
      else searchLoop lastId maxTotal rest false count
    else if maxTotal ≤ count then []
    else (p, pid) :: searchLoop lastId maxTotal rest found (count + 1)

/-- Shallow embedding of `ArxivClient.search_papers`.  Before the loop the
source executes (line 440) `if not last_processed_id or (last_processed_id
and not found_last_processed): found_last_processed = True` with
`found_last_processed` still `False`, which is modelled verbatim by the
computation of `found1`. -/
def search_papers (lastId : Option (List Char)) (maxTotal : Nat)
    (stream : List SearchItem) : List (SearchItem × List Char) :=
  let found0 := false
  let found1 := if lastId = none ∨ (lastId ≠ none ∧ found0 = false) then true else found0
  searchLoop lastId maxTotal stream found1 0

theorem searchLoop_found_true (lastId : Option (List Char)) (maxTotal : Nat) :
    ∀ (stream : List SearchItem) (count : Nat),
      searchLoop lastId maxTotal stream true count =
        (stream.take (maxTotal - count)).map (fun p => (p, extract_paper_id p.entryId)) := by
  intro stream
  induction stream with
  | nil => intro count; simp [searchLoop]
  | cons p rest ih =>
    intro count
    by_cases hc : maxTotal ≤ count
    · have h0 : maxTotal - count = 0 := Nat.sub_eq_zero_of_le hc
      simp [searchLoop, hc, h0]
    · have h2 : maxTotal - count = (maxTotal - (count + 1)) + 1 := by omega
      simp [searchLoop, hc, ih, h2]

/-- The pre-loop flag computation always yields `true`: with a watermark the
second disjunct of line 440 holds, without one the first does. -/
theorem search_papers_eq_take (lastId : Option (List Char)) (maxTotal : Nat)
    (stream : List SearchItem) :
    search_papers lastId maxTotal stream =
      (stream.take maxTotal).map (fun p => (p, extract_paper_id p.entryId)) := by
  have hcond : (lastId = none ∨ (lastId ≠ none ∧ false = false)) := by
    cases lastId with
    | none => exact Or.inl rfl
    | some x => exact Or.inr ⟨by simp, rfl⟩
  show searchLoop lastId maxTotal stream
      (if lastId = none ∨ (lastId ≠ none ∧ false = false) then true else false) 0 = _
  rw [if_pos hcond, searchLoop_found_true]
  simp

/-- C1 (code bug at src/arxiv_client.py line 440): resume idempotence fails.
The pre-loop condition `not last_processed_id or (last_processed_id and not
found_last_processed)` is a tautology, so `search_papers` processes the
first `max_total_results` items of the stream for every watermark instead of
resuming after the watermark item.  First conjunct: the output never depends
on the watermark and is always the capped stream prefix.  Second conjunct: a
concrete run with the watermark equal to the first item's identifier
re-processes that very item, where the claim requires processing to start at
the second item. -/
theorem c1_resume_idempotence_fails :
    (∀ (lastId : Option (List Char)) (maxTotal : Nat) (stream : List SearchItem),
      search_papers lastId maxTotal stream =
        (stream.take maxTotal).map (fun p => (p, extract_paper_id p.entryId))) ∧
    (search_papers (some (String.toList "2601.00001")) 20
        (⟨String.toList "2601.00001v1"⟩ :: ⟨String.toList "2601.00002v1"⟩ ::
          ⟨String.toList "2601.00003v1"⟩ :: [])).map (fun r => r.2) =
      String.toList "2601.00001" :: String.toList "2601.00002" ::
        String.toList "2601.00003" :: [] := by
  constructor
  · exact search_papers_eq_take
  · decide

/-- C2 (code bug at src/arxiv_client.py line 440): when the watermark
identifier occurs nowhere in the stream the claim requires zero processed
items, but the code processes the capped stream prefix anyway: on a
two-item stream that contains no item with the persisted identifier, the
run still returns both items. -/
theorem c2_watermark_not_found_fails :
    ((⟨String.toList "2601.00011v1"⟩ :: ⟨String.toList "2601.00012v1"⟩ ::
        ([] : List SearchItem)).map
      (fun p => extract_paper_id p.entryId)).contains (String.toList "9999.99999") = false ∧
    (search_papers (some (String.toList "9999.99999")) 20
        (⟨String.toList "2601.00011v1"⟩ :: ⟨String.toList "2601.00012v1"⟩ :: [])).map
        (fun r => r.2) =
      String.toList "2601.00011" :: String.toList "2601.00012" :: [] := by
  constructor
  · decide
  · decide

/-! ### clustering.get_embeddings  (src/clustering.py lines 13-67)

The external embedding endpoint is modelled by an oracle: `oracle i batch`
is the outcome of the HTTP call for the batch starting at text index `i` —
`some data` a response carrying a `data` field (the ordered list of
embedding vectors), `none` any failure (exception, bad status, missing
`data` field).  Vector components are rationals. -/

/-- The fixed substitute vector appended per text of a failed batch:
`[0.0] * 768` in the source. -/
def zeroVec : List ℚ := List.replicate 768 0

/-- The batching loop `for i in range(0, len(texts), batch_size)` of
`get_embeddings`.  A zero `batch_size` makes the Python `range` raise; the
model returns the empty list there and every theorem assumes `0 < bs`. -/
def embedLoop (oracle : Nat → List String → Option (List (List ℚ)))
    (bs : Nat) (i : Nat) (texts : List String) : List (List ℚ) :=
  match texts with
  | [] => []
  | t :: rest =>
    if hbs : bs = 0 then []
    else
      (match oracle i ((t :: rest).take bs) with
        | some data => data
        | none => List.replicate ((t :: rest).take bs).length zeroVec) ++
        embedLoop oracle bs (i + bs) ((t :: rest).drop bs)
termination_by texts.length
decreasing_by
  have hpos : 0 < bs := Nat.pos_of_ne_zero hbs
  simp only [List.length_drop, List.length_cons]
  omega

/-- Shallow embedding of `clustering.get_embeddings`. -/
def get_embeddings (oracle : Nat → List String → Option (List (List ℚ)))
    (bs : Nat) (texts : List String) : List (List ℚ) :=
  if texts = [] then [] else embedLoop oracle bs 0 texts

theorem embedLoop_nil (oracle : Nat → List String → Option (List (List ℚ)))
    (bs i : Nat) : embedLoop oracle bs i [] = [] := by
  rw [embedLoop]

theorem embedLoop_cons (oracle : Nat → List String → Option (List (List ℚ)))
    (bs i : Nat) (t : String) (rest : List String) (hbs : bs ≠ 0) :
    embedLoop oracle bs i (t :: rest) =
      (match oracle i ((t :: rest).take bs) with
        | some data => data
        | none => List.replicate ((t :: rest).take bs).length zeroVec) ++
        embedLoop oracle bs (i + bs) ((t :: rest).drop bs) := by
  rw [embedLoop, dif_neg hbs]

theorem embed_batch_length (oracle : Nat → List String → Option (List (List ℚ)))
    (hor : ∀ i b d, oracle i b = some d → d.length = b.length) (i : Nat)
    (batch : List String) :
    (match oracle i batch with
      | some data => data
      | none => List.replicate batch.length zeroVec).length = batch.length := by
  cases ho : oracle i batch with
  | some d => simpa using hor _ _ _ ho
  | none => simp

theorem embedLoop_length (oracle : Nat → List String → Option (List (List ℚ)))
    (bs : Nat) (hbs : 0 < bs)
    (hor : ∀ i b d, oracle i b = some d → d.length = b.length) :
    ∀ (n : Nat) (texts : List String), texts.length ≤ n → ∀ (i : Nat),
      (embedLoop oracle bs i texts).length = texts.length := by
  intro n
  induction n with
  | zero =>
    intro texts h i
    rw [List.length_eq_zero.mp (Nat.le_zero.mp h)]
    rw [embedLoop_nil]
    rfl
  | succ n ih =>
    intro texts h i
    cases texts with
    | nil => rw [embedLoop_nil]; rfl
    | cons t rest =>
      rw [embedLoop_cons _ _ _ _ _ (Nat.pos_iff_ne_zero.mp hbs)]
      rw [List.length_append, embed_batch_length oracle hor]
      have hdrop : ((t :: rest).drop bs).length ≤ n := by
        simp only [List.length_drop, List.length_cons]
        simp only [List.length_cons] at h
        omega
      rw [ih _ hdrop]
      simp only [List.length_take, List.length_drop, List.length_cons]
      omega

theorem embedLoop_slice (oracle : Nat → List String → Option (List (List ℚ)))
    (bs : Nat) (hbs : 0 < bs)
    (hor : ∀ i b d, oracle i b = some d → d.length = b.length) :
    ∀ (n : Nat) (texts : List String), texts.length ≤ n → ∀ (i k : Nat),
      ((texts.drop (k * bs)).take bs) ≠ [] →
      ((embedLoop oracle bs i texts).drop (k * bs)).take bs =
        (match oracle (i + k * bs) ((texts.drop (k * bs)).take bs) with
          | some data => data
          | none => List.replicate ((texts.drop (k * bs)).take bs).length zeroVec) := by
  intro n
  induction n with
  | zero =>
    intro texts h i k hne
    rw [List.length_eq_zero.mp (Nat.le_zero.mp h)] at hne
    simp at hne
  | succ n ih =>
    intro texts h i k hne
    cases texts with
    | nil => simp at hne
    | cons t rest =>
      rw [embedLoop_cons _ _ _ _ _ (Nat.pos_iff_ne_zero.mp hbs)]
      have hblen := embed_batch_length oracle hor i ((t :: rest).take bs)
      cases k with
      | zero =>
        simp only [Nat.zero_mul, List.drop_zero, Nat.add_zero] at hne ⊢
        by_cases hlen : bs ≤ (t :: rest).length
        · have hb : (match oracle i ((t :: rest).take bs) with
              | some data => data
              | none => List.replicate ((t :: rest).take bs).length zeroVec).length = bs := by
            rw [hblen, List.length_take]
            omega
          have hTL := @List.take_left _
            (match oracle i ((t :: rest).take bs) with
              | some data => data
              | none => List.replicate ((t :: rest).take bs).length zeroVec)
            (embedLoop oracle bs (i + bs) ((t :: rest).drop bs))
          rw [hb] at hTL
          exact hTL
        · have hdrop : (t :: rest).drop bs = [] := by
            rw [List.drop_eq_nil_iff]
            omega
          rw [hdrop, embedLoop_nil, List.append_nil]
          apply List.take_of_length_le
          rw [hblen, List.length_take]
          exact Nat.min_le_left _ _
      | succ k =>
        have hlong : (k + 1) * bs < (t :: rest).length := by
          by_contra hc
          push_neg at hc
          rw [List.drop_eq_nil_iff.mpr hc] at hne
          simp at hne
        have hsplit : (k + 1) * bs = bs + k * bs := by ring
        have hblen2 : (match oracle i ((t :: rest).take bs) with
            | some data => data
            | none => List.replicate ((t :: rest).take bs).length zeroVec).length = bs := by
          rw [hblen, List.length_take]
          have h1 : 1 * bs ≤ (k + 1) * bs := Nat.mul_le_mul_right bs (by omega)
          simp only [Nat.one_mul] at h1
          omega
        have hdropdrop : ((t :: rest).drop bs).drop (k * bs) = (t :: rest).drop (bs + k * bs) :=
          List.drop_drop _ _ _
        have hdropstep := @List.drop_append _
          (match oracle i ((t :: rest).take bs) with
            | some data => data
            | none => List.replicate ((t :: rest).take bs).length zeroVec)
          (embedLoop oracle bs (i + bs) ((t :: rest).drop bs)) (k * bs)
        rw [hblen2] at hdropstep
        have hlen' : ((t :: rest).drop bs).length ≤ n := by
          simp only [List.length_drop, List.length_cons]
          simp only [List.length_cons] at h
          omega
        have hne' : (((t :: rest).drop bs).drop (k * bs)).take bs ≠ [] := by
          rw [hdropdrop, ← hsplit]
          exact hne
        have hrec := ih ((t :: rest).drop bs) hlen' (i + bs) k hne'
        rw [hdropdrop] at hrec
        have hidx : i + bs + k * bs = i + (bs + k * bs) := by omega
        rw [hidx] at hrec
        rw [hsplit, hdropstep]
        exact hrec

/-- C6: embedding degrade-not-fail.  Provided the endpoint returns one
vector per input of a successful batch, `get_embeddings` returns exactly one
vector per input text (first conjunct), and the slice of the output holding
batch `k` equals the oracle's data for that batch when the call succeeded
and `batch.length` copies of the 768-dimensional zero vector when it failed
— in particular a failed batch never aborts the call and later batches are
still served from the oracle (second conjunct). -/
theorem c6_embedding_degrade_not_fail
    (oracle : Nat → List String → Option (List (List ℚ))) (bs : Nat)
    (texts : List String) (hbs : 0 < bs)
    (hor : ∀ i b d, oracle i b = some d → d.length = b.length) :
    (get_embeddings oracle bs texts).length = texts.length ∧
    ∀ k : Nat, ((texts.drop (k * bs)).take bs) ≠ [] →
      ((get_embeddings oracle bs texts).drop (k * bs)).take bs =
        (match oracle (k * bs) ((texts.drop (k * bs)).take bs) with
          | some data => data
          | none => List.replicate ((texts.drop (k * bs)).take bs).length zeroVec) := by
  unfold get_embeddings
  by_cases hemp : texts = []
  · subst hemp
    refine ⟨by simp, ?_⟩
    intro k hne
    simp at hne
  · rw [if_neg hemp]
    constructor
    · exact embedLoop_length oracle bs hbs hor texts.length texts (le_refl _) 0
    · intro k hne
      have hs := embedLoop_slice oracle bs hbs hor texts.length texts (le_refl _) 0 k hne
      rw [Nat.zero_add] at hs
      exact hs

/-- A concrete oracle for the C6 witness: the first batch (start index 0)
fails, every other batch answers with one 1-dimensional vector per text. -/
def embOracle0 : Nat → List String → Option (List (List ℚ)) :=
  fun i b => if i = 0 then none else some (b.map (fun _ => 1 :: []))

theorem embOracle0_ok : ∀ i b d, embOracle0 i b = some d → d.length = b.length := by
  intro i b d h
  unfold embOracle0 at h
  by_cases hi : i = 0
  · rw [if_pos hi] at h
    cases h
  · rw [if_neg hi] at h
    have hd : b.map (fun _ => (1 : ℚ) :: []) = d := by
      injection h
    rw [← hd, List.length_map]

/-- Witness for C6: three texts in batches of two, the first batch failing,
still yield three vectors, and the second batch is served by the oracle. -/
theorem c6_embedding_degrade_not_fail_witness :
    0 < 2 ∧
    (get_embeddings embOracle0 2 ("a" :: "b" :: "c" :: [])).length =
      ("a" :: "b" :: "c" :: []).length ∧
    ((get_embeddings embOracle0 2 ("a" :: "b" :: "c" :: [])).drop (1 * 2)).take 2 =
      (match embOracle0 (1 * 2) (((("a" :: "b" :: "c" :: [])).drop (1 * 2)).take 2) with
        | some data => data
        | none =>
          List.replicate (((("a" :: "b" :: "c" :: [])).drop (1 * 2)).take 2).length zeroVec) :=
  ⟨by decide,
   (c6_embedding_degrade_not_fail embOracle0 2 ("a" :: "b" :: "c" :: [])
     (by decide) embOracle0_ok).1,
   (c6_embedding_degrade_not_fail embOracle0 2 ("a" :: "b" :: "c" :: [])
     (by decide) embOracle0_ok).2 1 (by decide)⟩

/-! ### clustering.cluster_papers_kmeans / cluster_papers  (src/clustering.py lines 69-157)

sklearn's KMeans and DBSCAN are external collaborators and are modelled as
function parameters.  `kmeansImpl seed nInit k data` stands for
`KMeans(n_clusters=k, random_state=seed, n_init=nInit).fit_predict(data)`;
with `random_state=None` sklearn would draw the seed from the ambient global
randomness, modelled by `ambientSeed`, but the source passes the literal
`random_state=42`.  DBSCAN consumes no randomness at all.  A cosine
distance entry 1 - <u,v>/(sqrt<u,u> sqrt<v,v>) is represented exactly by
the rational triple (<u,v>, <u,u>, <v,v>), which determines it. -/

def dot (u v : List ℚ) : ℚ := (List.zipWith (fun a b => a * b) u v).sum

def cosineTriple (u v : List ℚ) : ℚ × ℚ × ℚ := (dot u v, dot u u, dot v v)

/-- The precomputed matrix `cosine_distances(embeddings_array)`. -/
def cosineDistanceMatrix (embeddings : List (List ℚ)) : List (List (ℚ × ℚ × ℚ)) :=
  embeddings.map (fun u => embeddings.map (fun v => cosineTriple u v))

/-- Shallow embedding of `clustering.cluster_papers_kmeans`: the effective
seed is the configured `random_state = 42` — `(some 42).getD ambientSeed` —
never the ambient one, `n_init = 10`, and the cluster count is capped at
the sample count. -/
def cluster_papers_kmeans
    (kmeansImpl : Nat → Nat → Nat → List (List ℚ) → List Int)
    (ambientSeed : Nat) (embeddings : List (List ℚ)) (n_clusters : Nat) : List Int :=
  if embeddings = [] then []
  else kmeansImpl ((some 42).getD ambientSeed) 10 (min n_clusters embeddings.length) embeddings

/-- Shallow embedding of `clustering.cluster_papers` (DBSCAN with
`metric='precomputed'` over the cosine-distance matrix).  `dbscanImpl eps
minSamples matrix` stands for the sklearn call; it is never handed the
ambient randomness. -/
def cluster_papers
    (dbscanImpl : ℚ → Nat → List (List (ℚ × ℚ × ℚ)) → List Int)
    (ambientSeed : Nat) (eps : ℚ) (minSamples : Nat)
    (embeddings : List (List ℚ)) : List Int :=
  if embeddings = [] then []
  else dbscanImpl eps minSamples (cosineDistanceMatrix embeddings)

/-- C7: clustering determinism.  Two runs that differ only in the ambient
global randomness (the sole run-to-run varying input) produce identical
label assignments for both supported methods: the centroid method fixes
`random_state = 42` and the density method consumes no randomness, so the
ambient seed never reaches either implementation. -/
theorem c7_clustering_determinism
    (kmeansImpl : Nat → Nat → Nat → List (List ℚ) → List Int)
    (dbscanImpl : ℚ → Nat → List (List (ℚ × ℚ × ℚ)) → List Int)
    (seed₁ seed₂ : Nat) (embeddings : List (List ℚ)) (n_clusters : Nat)
    (eps : ℚ) (minSamples : Nat) :
    cluster_papers_kmeans kmeansImpl seed₁ embeddings n_clusters =
      cluster_papers_kmeans kmeansImpl seed₂ embeddings n_clusters ∧
    cluster_papers dbscanImpl seed₁ eps minSamples embeddings =
      cluster_papers dbscanImpl seed₂ eps minSamples embeddings :=
  ⟨rfl, rfl⟩

/-! ### clustering.select_representative_papers  (src/clustering.py lines 160-255)

Python dicts (the paper records) are modelled as insertion-ordered
association lists; `dict.copy()` is value copying and `d[k] = v` replaces
an existing key in place or appends a fresh one.  `random.sample` is the
explicit parameter `sample`.  The source stores the Euclidean norm
`np.linalg.norm(embedding - center)` and sorts by it; the model works with
the squared distance, which induces the same ascending order, and keeps the
literal noise sentinel 999. -/

inductive DVal where
  | vInt : Int → DVal
  | vRat : ℚ → DVal
  | vStr : String → DVal
  | vOpaque : Nat → DVal
deriving DecidableEq

abbrev Dict := List (String × DVal)

/-- Python `d[k] = v`. -/
def setKey : Dict → String → DVal → Dict
  | [], k, v => (k, v) :: []
  | (k₀, v₀) :: rest, k, v =>
    if k₀ = k then (k, v) :: rest else (k₀, v₀) :: setKey rest k v

/-- Python `d[k]` as an observation (`none` when the key is absent). -/
def getKey : Dict → String → Option DVal
  | [], _ => none
  | (k₀, v₀) :: rest, k => if k₀ = k then some v₀ else getKey rest k

/-- One `{'index': i, 'paper': ..., 'embedding': ...}` record of
`cluster_to_papers`. -/
structure ClusterItem where
  index : Nat
  paper : Dict
  embedding : List ℚ
deriving DecidableEq

/-- The records built from `zip(papers, labels)` in index order (`zip`
truncates at the shorter list; `embeddings[i]` would raise in Python when
`embeddings` is shorter, so theorems assume equal lengths). -/
def itemsOf (papers : List Dict) (embeddings : List (List ℚ)) (labels : List Int) :
    List ClusterItem :=
  (List.range (min papers.length labels.length)).map
    (fun i => ⟨i, papers.getD i [], embeddings.getD i []⟩)

/-- The member list `cluster_to_papers[c]` (insertion order = index order). -/
def membersOf (papers : List Dict) (embeddings : List (List ℚ)) (labels : List Int)
    (c : Int) : List ClusterItem :=
  (itemsOf papers embeddings labels).filter (fun it => labels.getD it.index 0 = c)

/-- First-occurrence deduplication: the key order of a Python dict built by
repeated `defaultdict` insertion. -/
def dedupFirst : List Int → List Int
  | [] => []
  | c :: rest => c :: (dedupFirst rest).filter (fun x => ¬ x = c)

/-- The keys of `cluster_to_papers` in insertion order. -/
def labelKeys (papers : List Dict) (labels : List Int) : List Int :=
  dedupFirst (labels.take (min papers.length labels.length))

/-- Stable insertion step (Python `list.sort` is stable: an element moves
past another only when strictly required by the order). -/
def insertBy {α : Type} (le : α → α → Bool) (x : α) : List α → List α
  | [] => x :: []
  | y :: ys => if le x y then x :: y :: ys else y :: insertBy le x ys

/-- Stable sort by the boolean comparison `le`. -/
def sortBy {α : Type} (le : α → α → Bool) : List α → List α
  | [] => []
  | x :: xs => insertBy le x (sortBy le xs)

/-- Coordinate-wise sum of the member vectors (`np.mean` numerator). -/
def vecSum : List (List ℚ) → List ℚ
  | [] => []
  | v :: [] => v
  | v :: w :: rest => List.zipWith (fun a b => a + b) v (vecSum (w :: rest))

/-- The cluster centre `np.mean(cluster_embeddings, axis=0)`. -/
def centroid (vs : List (List ℚ)) : List ℚ :=
  (vecSum vs).map (fun x => x / (vs.length : ℚ))

/-- Squared Euclidean distance: the square of the
`np.linalg.norm(embedding - center)` the source sorts by. -/
def distSq (u v : List ℚ) : ℚ :=
  ((List.zipWith (fun a b => a - b) u v).map (fun x => x * x)).sum

/-- `paper.copy()` followed by the four metadata assignments of the source,
in source order. -/
def annotate (d : Dict) (cid : Int) (csize : Int) (crank : Int) (dist : ℚ) : Dict :=
  setKey (setKey (setKey (setKey d "_cluster_id" (DVal.vInt cid))
    "_cluster_size" (DVal.vInt csize)) "_cluster_rank" (DVal.vInt crank))
    "_distance_to_center" (DVal.vRat dist)

/-- The `(distance, item)` pairs of one cluster, in member order. -/
def memberDists (papers : List Dict) (embeddings : List (List ℚ)) (labels : List Int)
    (c : Int) : List (ℚ × ClusterItem) :=
  (membersOf papers embeddings labels c).map
    (fun it => (distSq it.embedding
      (centroid ((membersOf papers embeddings labels c).map (fun it => it.embedding))), it))

/-- `distances.sort(key=lambda x: x[0])`. -/
def sortedDists (papers : List Dict) (embeddings : List (List ℚ)) (labels : List Int)
    (c : Int) : List (ℚ × ClusterItem) :=
  sortBy (fun a b => a.1 ≤ b.1) (memberDists papers embeddings labels c)

/-- The representatives of the kept cluster `c` of rank `rank`: the closest
`max 1 (cluster_size / 2)` members, annotated. -/
def clusterReps (papers : List Dict) (embeddings : List (List ℚ)) (labels : List Int)
    (rank : Nat) (c : Int) : List Dict :=
  ((sortedDists papers embeddings labels c).take
      (max 1 ((membersOf papers embeddings labels c).length / 2))).map
    (fun p => annotate p.2.paper c ((membersOf papers embeddings labels c).length : Int)
      (rank : Int) p.1)

/-- The kept cluster labels: non-noise labels in insertion order, stably
sorted by descending member count, truncated to `top_n`. -/
def topClusterLabels (papers : List Dict) (embeddings : List (List ℚ))
    (labels : List Int) (top_n : Nat) : List Int :=
  (sortBy
    (fun c₁ c₂ => (membersOf papers embeddings labels c₂).length ≤
      (membersOf papers embeddings labels c₁).length)
    ((labelKeys papers labels).filter (fun c => ¬ c = (-1 : Int)))).take top_n

/-- The noise block: up to two sampled noise items with the sentinel
metadata `_cluster_size = 0`, `_cluster_rank = 999`, distance `999`. -/
def noiseReps (sample : List ClusterItem → Nat → List ClusterItem)
    (papers : List Dict) (embeddings : List (List ℚ)) (labels : List Int) : List Dict :=
  if (labelKeys papers labels).contains (-1) then
    if 0 < min 2 (membersOf papers embeddings labels (-1)).length then
      (sample (membersOf papers embeddings labels (-1))
          (min 2 (membersOf papers embeddings labels (-1)).length)).map
        (fun it => annotate it.paper (-1) 0 999 999)
    else []
  else []

/-- Shallow embedding of `clustering.select_representative_papers`.  The
first component is the caller-visible `papers` list after the call (the
source only reads the input dicts and annotates copies), the second the
returned representative list. -/
def select_representative_papers (sample : List ClusterItem → Nat → List ClusterItem)
    (papers : List Dict) (embeddings : List (List ℚ)) (labels : List Int)
    (top_n : Nat) : List Dict × List Dict :=
  if papers = [] then (papers, [])
  else
    (papers,
      ((topClusterLabels papers embeddings labels top_n).enum.map
        (fun rc => clusterReps papers embeddings labels rc.1 rc.2)).flatten ++
      noiseReps sample papers embeddings labels)

/-! ### Lemmas about the sorting and dict primitives -/

theorem insertBy_perm {α : Type} (le : α → α → Bool) (x : α) :
    ∀ l : List α, (insertBy le x l).Perm (x :: l) := by
  intro l
  induction l with
  | nil => exact List.Perm.refl _
  | cons y ys ih =>
    by_cases h : le x y = true
    · simp [insertBy, h]
    · rw [Bool.not_eq_true] at h
      simp only [insertBy, h, Bool.false_eq_true, if_false]
      exact (ih.cons y).trans (List.Perm.swap x y ys)

theorem sortBy_perm {α : Type} (le : α → α → Bool) :
    ∀ l : List α, (sortBy le l).Perm l := by
  intro l
  induction l with
  | nil => exact List.Perm.refl _
  | cons x xs ih => exact (insertBy_perm le x (sortBy le xs)).trans (ih.cons x)

theorem mem_insertBy {α : Type} {le : α → α → Bool} {x y : α} {l : List α} :
    y ∈ insertBy le x l ↔ y = x ∨ y ∈ l := by
  rw [(insertBy_perm le x l).mem_iff]
  simp

theorem insertBy_pairwise {α : Type} {le : α → α → Bool}
    (htot : ∀ a b, le a b = true ∨ le b a = true)
    (htrans : ∀ a b c, le a b = true → le b c = true → le a c = true) (x : α) :
    ∀ {l : List α}, List.Pairwise (fun a b => le a b = true) l →
      List.Pairwise (fun a b => le a b = true) (insertBy le x l) := by
  intro l
  induction l with
  | nil =>
    intro _
    simp [insertBy]
  | cons y ys ih =>
    intro hp
    rcases List.pairwise_cons.mp hp with ⟨hy, hys⟩
    by_cases h : le x y = true
    · simp only [insertBy, h, if_true]
      refine List.pairwise_cons.mpr ⟨?_, hp⟩
      intro z hz
      rcases List.mem_cons.mp hz with rfl | hz
      · exact h
      · exact htrans x y z h (hy z hz)
    · have hyx : le y x = true := by
        rcases htot x y with h1 | h1
        · exact absurd h1 h
        · exact h1
      rw [Bool.not_eq_true] at h
      simp only [insertBy, h, Bool.false_eq_true, if_false]
      refine List.pairwise_cons.mpr ⟨?_, ih hys⟩
      intro z hz
      rcases mem_insertBy.mp hz with rfl | hz
      · exact hyx
      · exact hy z hz

theorem sortBy_pairwise {α : Type} {le : α → α → Bool}
    (htot : ∀ a b, le a b = true ∨ le b a = true)
    (htrans : ∀ a b c, le a b = true → le b c = true → le a c = true) :
    ∀ l : List α, List.Pairwise (fun a b => le a b = true) (sortBy le l) := by
  intro l
  induction l with
  | nil => exact List.Pairwise.nil
  | cons x xs ih => exact insertBy_pairwise htot htrans x ih

theorem pairwise_take_drop {α : Type} {R : α → α → Prop} {l : List α}
    (h : List.Pairwise R l) (k : Nat) :
    ∀ p ∈ l.take k, ∀ q ∈ l.drop k, R p q := by
  have hsplit := List.take_append_drop k l
  rw [← hsplit] at h
  exact (List.pairwise_append.mp h).2.2

theorem getKey_setKey_same (k : String) (v : DVal) :
    ∀ d : Dict, getKey (setKey d k v) k = some v := by
  intro d
  induction d with
  | nil => simp [setKey, getKey]
  | cons kv rest ih =>
    cases kv with
    | mk k₀ v₀ =>
      by_cases h : k₀ = k
      · simp [setKey, h, getKey]
      · simp [setKey, h, getKey, ih]

theorem getKey_setKey_ne {k k' : String} (hne : ¬ k' = k) (v : DVal) :
    ∀ d : Dict, getKey (setKey d k v) k' = getKey d k' := by
  intro d
  induction d with
  | nil =>
    have h2 : ¬ k = k' := fun he => hne he.symm
    simp [setKey, getKey, h2]
  | cons kv rest ih =>
    cases kv with
    | mk k₀ v₀ =>
      by_cases h : k₀ = k
      · have h2 : ¬ k = k' := fun he => hne he.symm
        have h3 : ¬ k₀ = k' := fun he => hne (h ▸ he.symm)
        simp [setKey, h, getKey, h2, h3]
      · by_cases h4 : k₀ = k'
        · simp [setKey, h, getKey, h4, hne]
        · simp [setKey, h, getKey, h4, ih]

theorem annotate_cluster_id (d : Dict) (cid csize crank : Int) (dist : ℚ) :
    getKey (annotate d cid csize crank dist) "_cluster_id" = some (DVal.vInt cid) := by
  unfold annotate
  rw [getKey_setKey_ne (by decide), getKey_setKey_ne (by decide),
    getKey_setKey_ne (by decide), getKey_setKey_same]

theorem annotate_cluster_size (d : Dict) (cid csize crank : Int) (dist : ℚ) :
    getKey (annotate d cid csize crank dist) "_cluster_size" = some (DVal.vInt csize) := by
  unfold annotate
  rw [getKey_setKey_ne (by decide), getKey_setKey_ne (by decide), getKey_setKey_same]

theorem annotate_cluster_rank (d : Dict) (cid csize crank : Int) (dist : ℚ) :
    getKey (annotate d cid csize crank dist) "_cluster_rank" = some (DVal.vInt crank) := by
  unfold annotate
  rw [getKey_setKey_ne (by decide), getKey_setKey_same]

theorem annotate_distance (d : Dict) (cid csize crank : Int) (dist : ℚ) :
    getKey (annotate d cid csize crank dist) "_distance_to_center" = some (DVal.vRat dist) := by
  unfold annotate
  rw [getKey_setKey_same]

theorem dedupFirst_subset : ∀ (l : List Int) (x : Int), x ∈ dedupFirst l → x ∈ l := by
  intro l
  induction l with
  | nil => intro x hx; cases hx
  | cons c rest ih =>
    intro x hx
    rcases List.mem_cons.mp hx with rfl | hx
    · exact List.mem_cons_self _ _
    · exact List.mem_cons_of_mem _ (ih x (List.mem_filter.mp hx).1)

theorem itemsOf_index_mem (papers : List Dict) (embeddings : List (List ℚ))
    (labels : List Int) {i : Nat} (hi : i < min papers.length labels.length) :
    (⟨i, papers.getD i [], embeddings.getD i []⟩ : ClusterItem) ∈
      itemsOf papers embeddings labels := by
  unfold itemsOf
  exact List.mem_map_of_mem _ (List.mem_range.mpr hi)

theorem itemsOf_paper_mem {papers : List Dict} {embeddings : List (List ℚ)}
    {labels : List Int} {it : ClusterItem}
    (hit : it ∈ itemsOf papers embeddings labels) : it.paper ∈ papers := by
  unfold itemsOf at hit
  obtain ⟨i, hi, rfl⟩ := List.mem_map.mp hit
  have hip : i < papers.length := lt_of_lt_of_le (List.mem_range.mp hi) (min_le_left _ _)
  have hgd : papers.getD i [] = papers[i] := List.getD_eq_getElem papers [] hip
  show papers.getD i [] ∈ papers
  rw [hgd]
  exact List.getElem_mem hip

theorem labelKeys_members_ne {papers : List Dict} (embeddings : List (List ℚ))
    {labels : List Int} {c : Int} (hc : c ∈ labelKeys papers labels) :
    membersOf papers embeddings labels c ≠ [] := by
  unfold labelKeys at hc
  have hct := dedupFirst_subset _ _ hc
  obtain ⟨i, hi, hgi⟩ := List.getElem_of_mem hct
  rw [List.length_take] at hi
  have him : i < min papers.length labels.length := lt_of_lt_of_le hi (min_le_left _ _)
  have hil : i < labels.length := lt_of_lt_of_le him (min_le_right _ _)
  have hgl : labels[i] = c := by
    rw [← hgi, List.getElem_take]
  intro hemp
  have hmem : (⟨i, papers.getD i [], embeddings.getD i []⟩ : ClusterItem) ∈
      membersOf papers embeddings labels c := by
    unfold membersOf
    refine List.mem_filter.mpr ⟨itemsOf_index_mem papers embeddings labels him, ?_⟩
    have : labels.getD i 0 = c := by
      rw [List.getD_eq_getElem labels 0 hil, hgl]
    simpa using this
  rw [hemp] at hmem
  cases hmem

theorem topClusterLabels_mem {papers : List Dict} {embeddings : List (List ℚ)}
    {labels : List Int} {top_n : Nat} {c : Int}
    (hc : c ∈ topClusterLabels papers embeddings labels top_n) :
    c ∈ labelKeys papers labels ∧ ¬ c = (-1 : Int) := by
  unfold topClusterLabels at hc
  have h1 := List.take_subset _ _ hc
  have h2 := (sortBy_perm _ _).mem_iff.mp h1
  have h3 := List.mem_filter.mp h2
  exact ⟨h3.1, by simpa using h3.2⟩

/-! ### Membership structure of the selection output -/

theorem clusterReps_mem {papers : List Dict} {embeddings : List (List ℚ)}
    {labels : List Int} {rank : Nat} {c : Int} {x : Dict}
    (hx : x ∈ clusterReps papers embeddings labels rank c) :
    ∃ it : ClusterItem, it ∈ membersOf papers embeddings labels c ∧
      ∃ dist, x = annotate it.paper c ((membersOf papers embeddings labels c).length : Int)
        (rank : Int) dist := by
  unfold clusterReps at hx
  obtain ⟨p, hptake, rfl⟩ := List.mem_map.mp hx
  have hp1 : p ∈ sortedDists papers embeddings labels c := List.take_subset _ _ hptake
  have hp2 : p ∈ memberDists papers embeddings labels c := (sortBy_perm _ _).mem_iff.mp hp1
  unfold memberDists at hp2
  obtain ⟨it, hit, heq⟩ := List.mem_map.mp hp2
  subst heq
  exact ⟨it, hit, _, rfl⟩

theorem noiseReps_mem {sample : List ClusterItem → Nat → List ClusterItem}
    (hs : ∀ l k, ∀ x ∈ sample l k, x ∈ l)
    {papers : List Dict} {embeddings : List (List ℚ)} {labels : List Int} {x : Dict}
    (hx : x ∈ noiseReps sample papers embeddings labels) :
    ∃ it : ClusterItem, it ∈ membersOf papers embeddings labels (-1) ∧
      x = annotate it.paper (-1) 0 999 999 := by
  unfold noiseReps at hx
  by_cases h1 : (labelKeys papers labels).contains (-1) = true
  · rw [if_pos h1] at hx
    by_cases h2 : 0 < min 2 (membersOf papers embeddings labels (-1)).length
    · rw [if_pos h2] at hx
      obtain ⟨it, hit, rfl⟩ := List.mem_map.mp hx
      exact ⟨it, hs _ _ it hit, rfl⟩
    · rw [if_neg h2] at hx
      cases hx
  · rw [if_neg h1] at hx
    cases hx

theorem select_output_mem {sample : List ClusterItem → Nat → List ClusterItem}
    (hs : ∀ l k, ∀ x ∈ sample l k, x ∈ l)
    {papers : List Dict} {embeddings : List (List ℚ)} {labels : List Int}
    {top_n : Nat} {x : Dict}
    (hx : x ∈ (select_representative_papers sample papers embeddings labels top_n).2) :
    ∃ it : ClusterItem, it ∈ itemsOf papers embeddings labels ∧
      (labels.getD it.index 0 ∈ topClusterLabels papers embeddings labels top_n ∨
        labels.getD it.index 0 = -1) ∧
      ∃ cid csize crank dist, x = annotate it.paper cid csize crank dist := by
  unfold select_representative_papers at hx
  by_cases hp : papers = []
  · rw [if_pos hp] at hx
    cases hx
  · rw [if_neg hp] at hx
    rcases List.mem_append.mp hx with hx | hx
    · obtain ⟨block, hb, hxb⟩ := List.mem_flatten.mp hx
      obtain ⟨rc, hrc, rfl⟩ := List.mem_map.mp hb
      obtain ⟨it, hit, dist, rfl⟩ := clusterReps_mem hxb
      unfold membersOf at hit
      have hcm : labels.getD it.index 0 = rc.2 := by
        simpa using (List.mem_filter.mp hit).2
      refine ⟨it, (List.mem_filter.mp hit).1,
        Or.inl (by rw [hcm]; exact List.snd_mem_of_mem_enum hrc), _, _, _, _, rfl⟩
    · obtain ⟨it, hit, rfl⟩ := noiseReps_mem hs hx
      unfold membersOf at hit
      have hcm : labels.getD it.index 0 = -1 := by
        simpa using (List.mem_filter.mp hit).2
      exact ⟨it, (List.mem_filter.mp hit).1, Or.inr hcm, _, _, _, _, rfl⟩

/-! ### Concrete instances used by witnesses and counterexamples -/

/-- A deterministic instantiation of `random.sample` used in witnesses:
take the first `k` items (a legitimate sample). -/
def sampleTake : List ClusterItem → Nat → List ClusterItem := fun l k => l.take k

theorem sampleTake_mem : ∀ (l : List ClusterItem) (k : Nat), ∀ x ∈ sampleTake l k, x ∈ l :=
  fun l k _ hx => List.take_subset k l hx

def d0 : Dict := ("title", DVal.vStr "p0") :: []

def d1 : Dict := ("title", DVal.vStr "p1") :: []

def d2 : Dict := ("title", DVal.vStr "p2") :: []

/-- C3 (corrected): for each kept cluster `c` of rank `r`, the selection
emits the block `clusterReps`, which keeps `max 1 (n / 2)` members (the
source computes `max(1, cluster_size // 2)` — floor, not the ceil of the
claim): the output of `select_representative_papers` is the concatenation
of the per-cluster blocks and the noise block; kept clusters are nonempty;
the block size is `max 1 (n / 2)`; the distance list is stably sorted (a
sorted permutation of the member distances); every kept entry's squared
centroid distance is at most every dropped entry's; and every emitted
record is tagged with the cluster id, cluster size, cluster rank and its
distance. -/
theorem c3_cluster_representative_selection
    (sample : List ClusterItem → Nat → List ClusterItem)
    (papers : List Dict) (embeddings : List (List ℚ)) (labels : List Int)
    (top_n : Nat) (r : Nat) (c : Int) (hp : papers ≠ [])
    (hc : (topClusterLabels papers embeddings labels top_n).get? r = some c) :
    (select_representative_papers sample papers embeddings labels top_n).2 =
      ((topClusterLabels papers embeddings labels top_n).enum.map
        (fun rc => clusterReps papers embeddings labels rc.1 rc.2)).flatten ++
      noiseReps sample papers embeddings labels ∧
    membersOf papers embeddings labels c ≠ [] ∧
    (clusterReps papers embeddings labels r c).length =
      max 1 ((membersOf papers embeddings labels c).length / 2) ∧
    (sortedDists papers embeddings labels c).Perm (memberDists papers embeddings labels c) ∧
    List.Pairwise (fun a b : ℚ × ClusterItem => a.1 ≤ b.1)
      (sortedDists papers embeddings labels c) ∧
    (∀ p ∈ (sortedDists papers embeddings labels c).take
        (max 1 ((membersOf papers embeddings labels c).length / 2)),
      ∀ q ∈ (sortedDists papers embeddings labels c).drop
        (max 1 ((membersOf papers embeddings labels c).length / 2)), p.1 ≤ q.1) ∧
    ∀ x ∈ clusterReps papers embeddings labels r c,
      getKey x "_cluster_id" = some (DVal.vInt c) ∧
      getKey x "_cluster_size" =
        some (DVal.vInt ((membersOf papers embeddings labels c).length : Int)) ∧
      getKey x "_cluster_rank" = some (DVal.vInt (r : Int)) ∧
      ∃ p, p ∈ (sortedDists papers embeddings labels c).take
          (max 1 ((membersOf papers embeddings labels c).length / 2)) ∧
        getKey x "_distance_to_center" = some (DVal.vRat p.1) ∧
        x = annotate p.2.paper c ((membersOf papers embeddings labels c).length : Int)
          (r : Int) p.1 := by
  have hcmem : c ∈ topClusterLabels papers embeddings labels top_n := List.get?_mem hc
  have hne : membersOf papers embeddings labels c ≠ [] :=
    labelKeys_members_ne embeddings (topClusterLabels_mem hcmem).1
  have hperm : (sortedDists papers embeddings labels c).Perm
      (memberDists papers embeddings labels c) := sortBy_perm _ _
  have hn1 : 1 ≤ (membersOf papers embeddings labels c).length :=
    List.length_pos.mpr hne
  have hlen : (sortedDists papers embeddings labels c).length =
      (membersOf papers embeddings labels c).length := by
    rw [hperm.length_eq]
    unfold memberDists
    rw [List.length_map]
  have hpw : List.Pairwise (fun a b : ℚ × ClusterItem => a.1 ≤ b.1)
      (sortedDists papers embeddings labels c) := by
    have h := @sortBy_pairwise (ℚ × ClusterItem)
      (fun a b : ℚ × ClusterItem => decide (a.1 ≤ b.1))
      (fun a b => by
        rcases le_total a.1 b.1 with h | h
        · exact Or.inl (decide_eq_true h)
        · exact Or.inr (decide_eq_true h))
      (fun a b cc hab hbc =>
        decide_eq_true (le_trans (of_decide_eq_true hab) (of_decide_eq_true hbc)))
      (memberDists papers embeddings labels c)
    exact h.imp (fun hab => of_decide_eq_true hab)
  refine ⟨?_, hne, ?_, hperm, hpw, ?_, ?_⟩
  · unfold select_representative_papers
    rw [if_neg hp]
  · unfold clusterReps
    rw [List.length_map, List.length_take, hlen]
    omega
  · exact pairwise_take_drop hpw _
  · intro x hx
    unfold clusterReps at hx
    obtain ⟨p, hptake, rfl⟩ := List.mem_map.mp hx
    exact ⟨annotate_cluster_id _ _ _ _ _, annotate_cluster_size _ _ _ _ _,
      annotate_cluster_rank _ _ _ _ _, p, hptake, annotate_distance _ _ _ _ _, rfl⟩

/-- Witness for C3 on a two-member cluster. -/
theorem c3_cluster_representative_selection_witness :
    (clusterReps (d0 :: d1 :: []) ((0 :: []) :: (2 :: []) :: [])
        ((0 : Int) :: 0 :: []) 0 0).length =
      max 1 ((membersOf (d0 :: d1 :: []) ((0 :: []) :: (2 :: []) :: [])
        ((0 : Int) :: 0 :: []) 0).length / 2) :=
  (c3_cluster_representative_selection sampleTake (d0 :: d1 :: [])
    ((0 :: []) :: (2 :: []) :: []) ((0 : Int) :: 0 :: []) 5 0 0
    (by decide) (by decide)).2.2.1

/-- C3 counterexample to the ceil of the claim as stated: a kept cluster of
size 3 contributes exactly one representative (`max 1 (3 / 2) = 1`), not
`ceil(3/2) = 2`. -/
theorem c3_ceil_counterexample :
    (select_representative_papers sampleTake (d0 :: d1 :: d2 :: [])
        ((0 :: []) :: (0 :: []) :: (4 :: []) :: [])
        ((0 : Int) :: 0 :: 0 :: []) 5).2 =
      annotate d0 0 3 0 (16 / 9 : ℚ) :: [] ∧
    ((select_representative_papers sampleTake (d0 :: d1 :: d2 :: [])
        ((0 :: []) :: (0 :: []) :: (4 :: []) :: [])
        ((0 : Int) :: 0 :: 0 :: []) 5).2.filter
      (fun d => getKey d "_cluster_id" = some (DVal.vInt 0))).length = 1 := by
  constructor
  · with_unfolding_all rfl
  · with_unfolding_all rfl

/-- C4 (corrected): every representative is an annotated copy of an input
paper that lies in a kept top cluster or in the noise set, so the base
papers form a subset of the input; the subset need not be proper (see the
counterexample theorem). -/
theorem c4_representatives_membership
    (sample : List ClusterItem → Nat → List ClusterItem)
    (papers : List Dict) (embeddings : List (List ℚ)) (labels : List Int) (top_n : Nat)
    (hs : ∀ l k, ∀ x ∈ sample l k, x ∈ l) :
    ∀ x ∈ (select_representative_papers sample papers embeddings labels top_n).2,
      ∃ it : ClusterItem, it ∈ itemsOf papers embeddings labels ∧ it.paper ∈ papers ∧
        (labels.getD it.index 0 ∈ topClusterLabels papers embeddings labels top_n ∨
          labels.getD it.index 0 = -1) ∧
        ∃ cid csize crank dist, x = annotate it.paper cid csize crank dist := by
  intro x hx
  obtain ⟨it, hit, hlab, hann⟩ := select_output_mem hs hx
  exact ⟨it, hit, itemsOf_paper_mem hit, hlab, hann⟩

/-- Witness for C4 on a one-paper, one-cluster input. -/
theorem c4_representatives_membership_witness :
    ∃ it : ClusterItem, it ∈ itemsOf (d0 :: []) ((1 :: []) :: []) ((0 : Int) :: []) ∧
      it.paper ∈ (d0 :: []) ∧
      (((0 : Int) :: []).getD it.index 0 ∈
        topClusterLabels (d0 :: []) ((1 :: []) :: []) ((0 : Int) :: []) 5 ∨
        ((0 : Int) :: []).getD it.index 0 = -1) ∧
      ∃ cid csize crank dist, annotate d0 0 1 0 0 = annotate it.paper cid csize crank dist := by
  have hout : (select_representative_papers sampleTake (d0 :: []) ((1 :: []) :: [])
      ((0 : Int) :: []) 5).2 = annotate d0 0 1 0 0 :: [] := by
    with_unfolding_all rfl
  exact c4_representatives_membership sampleTake (d0 :: []) ((1 :: []) :: [])
    ((0 : Int) :: []) 5 sampleTake_mem (annotate d0 0 1 0 0)
    (by rw [hout]; exact List.mem_singleton.mpr rfl)

/-- C4 counterexample to strictness: with a single paper forming a single
cluster the selection returns an annotated copy of that very paper, so the
returned representatives cover the whole input — the base-paper set equals
the input set and is not a proper subset. -/
theorem c4_strictness_counterexample :
    (select_representative_papers sampleTake (d0 :: []) ((1 :: []) :: [])
        ((0 : Int) :: []) 5).2 = annotate d0 0 1 0 0 :: [] ∧
    ∃ x, x ∈ (select_representative_papers sampleTake (d0 :: []) ((1 :: []) :: [])
        ((0 : Int) :: []) 5).2 ∧
      ∃ cid csize crank dist, x = annotate d0 cid csize crank dist := by
  have hout : (select_representative_papers sampleTake (d0 :: []) ((1 :: []) :: [])
      ((0 : Int) :: []) 5).2 = annotate d0 0 1 0 0 :: [] := by
    with_unfolding_all rfl
  exact ⟨hout, annotate d0 0 1 0 0,
    by rw [hout]; exact List.mem_singleton.mpr rfl, 0, 1, 0, 0, rfl⟩

/-- C9: the selection never mutates its input: the caller-visible papers
list after the call is the input list unchanged, and every returned record
is an annotated copy of an input paper (the `_cluster_id`, `_cluster_size`,
`_cluster_rank`, `_distance_to_center` keys are set on the copies only). -/
theorem c9_selection_does_not_mutate_input
    (sample : List ClusterItem → Nat → List ClusterItem)
    (papers : List Dict) (embeddings : List (List ℚ)) (labels : List Int) (top_n : Nat)
    (hs : ∀ l k, ∀ x ∈ sample l k, x ∈ l) :
    (select_representative_papers sample papers embeddings labels top_n).1 = papers ∧
    ∀ x ∈ (select_representative_papers sample papers embeddings labels top_n).2,
      ∃ p, p ∈ papers ∧ ∃ cid csize crank dist, x = annotate p cid csize crank dist := by
  constructor
  · unfold select_representative_papers
    by_cases hp : papers = []
    · rw [if_pos hp]
    · rw [if_neg hp]
  · intro x hx
    obtain ⟨it, hit, _, hann⟩ := select_output_mem hs hx
    exact ⟨it.paper, itemsOf_paper_mem hit, hann⟩

/-- Witness for C9. -/
theorem c9_selection_does_not_mutate_input_witness :
    (select_representative_papers sampleTake (d0 :: []) ((1 :: []) :: [])
        ((0 : Int) :: []) 5).1 = d0 :: [] :=
  (c9_selection_does_not_mutate_input sampleTake (d0 :: []) ((1 :: []) :: [])
    ((0 : Int) :: []) 5 sampleTake_mem).1

/-! ### ArxivClient._extract_key_sections  (src/arxiv_client.py lines 202-337)

The line scan of the section extractor.  Lines are lists of characters.
The regular expressions of `section_patterns` have the uniform shape
`(?i)^\s*(?:D\.?\s*)?word(\s+word)*\s*$` (D a fixed digit, `[0-9]+` for the
conclusion patterns) and are applied with `re.match` to a stripped line, so
they are modelled by greedy consumption — exact here because every pattern
body starts with a letter, never with a digit, dot or space.  The generic
heading shape is `^\s*[0-9]+\.?\s+[A-Z]` (case-sensitive). -/

/-- The character class of ASCII `\s` and of `str.strip`. -/
def pyIsSpace (c : Char) : Bool :=
  c = ' ' || c = '\t' || c = '\n' || c = '\r' || c = Char.ofNat 11 || c = Char.ofNat 12

/-- Python `str.strip()`. -/
def stripChars (cs : List Char) : List Char :=
  ((cs.dropWhile pyIsSpace).reverse.dropWhile pyIsSpace).reverse

inductive Sec where
  | intro : Sec
  | related : Sec
  | method : Sec
  | conclusion : Sec
deriving DecidableEq

/-- The numeric prefix group of a heading pattern: a fixed digit
(`(?:1\.?\s*)?`) or any numeral (`(?:[0-9]+\.?\s*)?`). -/
inductive NumPref where
  | digit : Char → NumPref
  | anyNum : NumPref
deriving DecidableEq

/-- Consume the `\.?\s*` part after the numeral. -/
def dropDotSpaces (cs : List Char) : List Char :=
  match cs with
  | '.' :: rest => rest.dropWhile pyIsSpace
  | _ => cs.dropWhile pyIsSpace

/-- Consume the optional numeric prefix group. -/
def dropNumPref : NumPref → List Char → List Char
  | NumPref.digit d, cs =>
    match cs with
    | c :: rest => if c = d then dropDotSpaces rest else cs
    | [] => []
  | NumPref.anyNum, cs =>
    if (cs.headD 'x').isDigit then dropDotSpaces (cs.dropWhile Char.isDigit) else cs

/-- Match the words of a pattern body, separated by `\s+`, up to the end of
the (stripped) line. -/
def matchWords : List (List Char) → List Char → Bool
  | [], cs => cs.isEmpty
  | w :: [], cs => isPre w cs && (cs.drop w.length).isEmpty
  | w :: w₂ :: ws, cs =>
    isPre w cs &&
      pyIsSpace ((cs.drop w.length).headD 'x') &&
      matchWords (w₂ :: ws) ((cs.drop w.length).dropWhile pyIsSpace)

structure HeadPat where
  numPart : NumPref
  words : List (List Char)

/-- Apply one pattern to a stripped line (the `(?i)` flag is modelled by
lowercasing the line; the pattern words are lowercase). -/
def matchPat (p : HeadPat) (ls : List Char) : Bool :=
  matchWords p.words (dropNumPref p.numPart (ls.map Char.toLower))

/-- The `section_patterns` table of the source. -/
def patsOf : Sec → List HeadPat
  | Sec.intro =>
    ⟨NumPref.digit '1', ("introduction").toList :: []⟩ ::
    ⟨NumPref.digit '1', ("intro").toList :: []⟩ :: []
  | Sec.related =>
    ⟨NumPref.digit '2', ("related").toList :: ("work").toList :: []⟩ ::
    ⟨NumPref.digit '2', ("related").toList :: ("works").toList :: []⟩ ::
    ⟨NumPref.digit '2', ("related").toList :: ("literature").toList :: []⟩ ::
    ⟨NumPref.digit '2', ("background").toList :: []⟩ :: []
  | Sec.method =>
    ⟨NumPref.digit '3', ("method").toList :: []⟩ ::
    ⟨NumPref.digit '3', ("methods").toList :: []⟩ ::
    ⟨NumPref.digit '3', ("methodology").toList :: []⟩ ::
    ⟨NumPref.digit '3', ("approach").toList :: []⟩ ::
    ⟨NumPref.digit '3', ("proposed").toList :: ("method").toList :: []⟩ ::
    ⟨NumPref.digit '3', ("our").toList :: ("method").toList :: []⟩ ::
    ⟨NumPref.digit '3', ("methodology").toList :: ("and").toList :: ("approach").toList :: []⟩ :: []
  | Sec.conclusion =>
    ⟨NumPref.anyNum, ("conclusion").toList :: []⟩ ::
    ⟨NumPref.anyNum, ("conclusions").toList :: []⟩ ::
    ⟨NumPref.anyNum, ("summary").toList :: []⟩ ::
    ⟨NumPref.anyNum, ("discussion").toList :: ("and").toList :: ("conclusion").toList :: []⟩ :: []

/-- Does the stripped line match some pattern of section `s`? -/
def matchSec (s : Sec) (ls : List Char) : Bool :=
  (patsOf s).any (fun p => matchPat p ls)

/-- The iteration order of `section_patterns.items()`. -/
def secOrder : List Sec := Sec.intro :: Sec.related :: Sec.method :: Sec.conclusion :: []

/-- The title-search loop: for each section in order, test the current
line, then (tolerating wrapped titles) the next line; the boolean records
whether the next line was consumed as the title. -/
def findSectionAux : List Sec → List Char → Option (List Char) → Option (Sec × Bool)
  | [], _, _ => none
  | s :: order, ls, nx =>
    if matchSec s ls then some (s, false)
    else
      match nx with
      | some nls => if matchSec s nls then some (s, true) else findSectionAux order ls nx
      | none => findSectionAux order ls nx

def findSection (ls : List Char) (nx : Option (List Char)) : Option (Sec × Bool) :=
  findSectionAux secOrder ls nx

/-- The generic numbered-heading shape of the close check. -/
def genericHeading (ls : List Char) : Bool :=
  let afterNum : List Char :=
    match ls.dropWhile Char.isDigit with
    | '.' :: rest => rest
    | other => other
  (ls.headD 'x').isDigit && pyIsSpace (afterNum.headD 'x') &&
    ((afterNum.dropWhile pyIsSpace).headD 'x').isUpper

/-- The inner re-check `is_target_section` of the close branch. -/
def isTargetLine (ls : List Char) : Bool :=
  secOrder.any (fun s => matchSec s ls)

/-- The scan state: stored sections (as line lists — the source joins them
with a newline on storing), the open section, its accumulating buffer. -/
structure ScanState where
  sections : Sec → Option (List (List Char))
  current : Option Sec
  content : List (List Char)

/-- `sections[s] = content` (dict assignment overwrites). -/
def storeSec (st : ScanState) (s : Sec) (c : List (List Char)) :
    Sec → Option (List (List Char)) :=
  fun s₂ => if s₂ = s then some c else st.sections s₂

/-- The `if current_section and current_content: sections[...] = ...` save. -/
def saveIfOpen (st : ScanState) : Sec → Option (List (List Char)) :=
  match st.current with
  | some s => if st.content.isEmpty then st.sections else storeSec st s st.content
  | none => st.sections

/-- The `while i < len(lines)` scan of `_extract_key_sections`. -/
def scan : List (List Char) → ScanState → ScanState
  | [], st => st
  | l :: rest, st =>
    match findSection (stripChars l) ((rest.head?).map stripChars) with
    | some (sec, skip) =>
      scan (if skip then rest.drop 1 else rest)
        ⟨saveIfOpen st, some sec,
          (if skip then stripChars (rest.headD []) else stripChars l) :: []⟩
    | none =>
      match st.current with
      | none => scan rest st
      | some cur =>
        if genericHeading (stripChars l) then
          if isTargetLine (stripChars l) then
            scan rest ⟨st.sections, st.current, st.content ++ l :: []⟩
          else if cur = Sec.conclusion then
            scan rest ⟨st.sections, st.current, st.content ++ l :: []⟩
          else
            scan rest
              ⟨(if st.content.isEmpty then st.sections else storeSec st cur st.content),
                none, []⟩
        else scan rest ⟨st.sections, st.current, st.content ++ l :: []⟩
termination_by lines _ => lines.length
decreasing_by
  all_goals simp only [List.length_cons]
  all_goals first
    | omega
    | (split <;> first | omega | (simp only [List.length_drop]; omega))

/-- The whole line scan including the final save. -/
def extractScan (lines : List (List Char)) : Sec → Option (List (List Char)) :=
  saveIfOpen (scan lines ⟨fun _ => none, none, []⟩)

/-- No line of the list opens a section (with the one-line lookahead). -/
def noHeads : List (List Char) → Bool
  | [] => true
  | l :: rest =>
    (findSection (stripChars l) ((rest.head?).map stripChars)).isNone && noHeads rest

theorem findSectionAux_none {ls : List Char} {nx : Option (List Char)} :
    ∀ {order : List Sec}, findSectionAux order ls nx = none →
      ∀ s ∈ order, matchSec s ls = false := by
  intro order
  induction order with
  | nil =>
    intro _ s hs
    cases hs
  | cons s₀ order ih =>
    intro h s hs
    simp only [findSectionAux] at h
    by_cases hm : matchSec s₀ ls = true
    · rw [if_pos hm] at h
      cases h
    · rw [if_neg hm] at h
      have hrec : findSectionAux order ls nx = none := by
        cases nx with
        | none => exact h
        | some nls =>
          simp only at h
          by_cases hm2 : matchSec s₀ nls = true
          · rw [if_pos hm2] at h
            cases h
          · rwa [if_neg hm2] at h
      rcases List.mem_cons.mp hs with rfl | hs2
      · rw [Bool.not_eq_true] at hm
        exact hm
      · exact ih hrec s hs2

theorem findSection_none_not_target {ls : List Char} {nx : Option (List Char)}
    (h : findSection ls nx = none) : isTargetLine ls = false := by
  unfold findSection at h
  have hall := findSectionAux_none h
  unfold isTargetLine
  rw [List.any_eq_false]
  intro s hs
  rw [hall s hs]
  simp

theorem scan_conclusion_absorbs :
    ∀ (lines : List (List Char)) (st : ScanState),
      st.current = some Sec.conclusion → noHeads lines = true →
      scan lines st = ⟨st.sections, some Sec.conclusion, st.content ++ lines⟩ := by
  intro lines
  induction lines with
  | nil =>
    intro st hcur _
    cases st with
    | mk se cu co =>
      simp only at hcur
      rw [scan, hcur]
      simp
  | cons l rest ih =>
    intro st hcur hnh
    rw [noHeads, Bool.and_eq_true] at hnh
    have hfs : findSection (stripChars l) ((rest.head?).map stripChars) = none :=
      Option.isNone_iff_eq_none.mp hnh.1
    have hstep : scan (l :: rest) st =
        scan rest ⟨st.sections, st.current, st.content ++ l :: []⟩ := by
      rw [scan]
      simp only [hfs, hcur]
      by_cases ht : isTargetLine (stripChars l) = true
      · by_cases hg : genericHeading (stripChars l) = true
        · simp [hg, ht]
        · rw [Bool.not_eq_true] at hg
          simp [hg]
      · by_cases hg : genericHeading (stripChars l) = true
        · rw [Bool.not_eq_true] at ht
          simp [hg, ht]
        · rw [Bool.not_eq_true] at hg
          simp [hg]
    rw [hstep, ih _ (by simp [hcur]) hnh.2]
    simp

/-- C8: the Conclusion-absorbing rule of the section-extractor line scan.
First conjunct: while Conclusion is open, a line of the generic
numbered-heading shape that opens no target section (with the one-line
lookahead) never closes it — the line merely accumulates.  Second
conjunct: under the same conditions any other open section is closed and
its buffer stored.  Third conjunct: as long as no further line opens a
target section, an open Conclusion absorbs every remaining line to the end
of input. -/
theorem c8_conclusion_absorbing_rule :
    (∀ (st : ScanState) (l : List Char) (rest : List (List Char)),
      st.current = some Sec.conclusion →
      findSection (stripChars l) ((rest.head?).map stripChars) = none →
      genericHeading (stripChars l) = true →
      scan (l :: rest) st = scan rest ⟨st.sections, st.current, st.content ++ l :: []⟩) ∧
    (∀ (st : ScanState) (cur : Sec) (l : List Char) (rest : List (List Char)),
      st.current = some cur → ¬ cur = Sec.conclusion → st.content ≠ [] →
      findSection (stripChars l) ((rest.head?).map stripChars) = none →
      genericHeading (stripChars l) = true →
      scan (l :: rest) st = scan rest ⟨storeSec st cur st.content, none, []⟩) ∧
    (∀ (lines : List (List Char)) (st : ScanState),
      st.current = some Sec.conclusion → noHeads lines = true →
      scan lines st = ⟨st.sections, some Sec.conclusion, st.content ++ lines⟩) := by
  refine ⟨?_, ?_, scan_conclusion_absorbs⟩
  · intro st l rest hcur hfs hgen
    rw [scan]
    simp only [hfs, hcur, hgen]
    by_cases ht : isTargetLine (stripChars l) = true
    · simp [ht]
    · rw [Bool.not_eq_true] at ht
      simp [ht]
  · intro st cur l rest hcur hne hcont hfs hgen
    have ht : isTargetLine (stripChars l) = false := findSection_none_not_target hfs
    have hemp : st.content.isEmpty = false := by
      cases hco : st.content with
      | nil => exact absurd hco hcont
      | cons a as => rw [List.isEmpty_cons]
    rw [scan]
    simp only [hfs, hcur, hgen, ht, hemp]
    simp [hne]

/-- Witness for C8: with Conclusion open, the generic heading `5. Results`
is absorbed into the Conclusion buffer. -/
theorem c8_conclusion_absorbing_rule_witness :
    scan (("5. Results").toList :: ("more text").toList :: [])
        ⟨fun _ => none, some Sec.conclusion, ("6 Conclusion").toList :: []⟩ =
      scan (("more text").toList :: [])
        ⟨fun _ => none, some Sec.conclusion,
          ("6 Conclusion").toList :: ("5. Results").toList :: []⟩ :=
  c8_conclusion_absorbing_rule.1
    ⟨fun _ => none, some Sec.conclusion, ("6 Conclusion").toList :: []⟩
    (("5. Results").toList) (("more text").toList :: []) rfl (by decide) (by decide)

end ArxivDaily
